import Mathlib

/-!
# Verification of the long-term-memory engine

A shallow embedding of the repository's memory store, relevance ranker,
extraction filter and orchestrator (`src/storage.py`, `src/retriever.py`,
`src/extractor.py`, `src/memory_system.py`), with theorems settling the
specification's claims about them.

Modelling conventions:
* Embedding vectors are `List ℚ` (exact arithmetic in place of float32;
  none of the claims depends on rounding).
* The cosine-similarity value `dot / (‖q‖ * ‖m‖)` is kept in exact form:
  `SimVal.fin d ab` denotes the real number `d / Real.sqrt ab` where
  `ab = normSq q * normSq m`; a zero denominator (numpy `0.0/0.0`)
  is the explicit value `SimVal.nan`.  Comparison of two such values is
  decided by comparing signs and squared magnitudes, which is exact.
* Python's `list.sort(key=..., reverse=True)` (Timsort) and SQLite's
  `ORDER BY ... DESC` over a table scan are modelled by a stable
  descending insertion sort `sortDesc`; for consistent comparators
  (strict weak orders) every stable descending sort produces the same
  list, so the model is exact there.  Theorems about the resulting order
  carry hypotheses ruling NaN keys out, since CPython's sort is
  unspecified for inconsistent comparators.
* SQLite state is a `Storage` structure: a monotone id counter
  (`AUTOINCREMENT`) plus the rows in insertion (rowid) order.
  `CURRENT_TIMESTAMP` is passed in as an explicit `now : Nat`.
* The two external services (embedding, completion) are inputs: the
  embedding service is a function `String → List ℚ`, and the completion
  service's structured answers (candidate memories, deletion ids) are
  explicit parameters of the orchestrator.
-/

/-! ## Vectors -/

/-- Model of `np.dot` on two equal-length vectors (pairwise products, summed). -/
def dotp : List ℚ → List ℚ → ℚ
  | a :: as, b :: bs => a * b + dotp as bs
  | _, _ => 0

/-- Squared Euclidean norm; `np.linalg.norm v = Real.sqrt (normSq v)`. -/
def normSq (v : List ℚ) : ℚ := dotp v v

/-! ## Exact model of the float similarity value -/

/-- The value of the float expression
`np.dot(q, m) / (np.linalg.norm(q) * np.linalg.norm(m))`.
`fin d ab` stands for the real number `d / Real.sqrt ab`; `nan` is the
IEEE result of a division whose denominator is zero. -/
inductive SimVal where
  | fin (d : ℚ) (ab : ℚ)
  | nan
deriving DecidableEq, Repr

/-- IEEE `<` on similarity values: every comparison against NaN is false;
finite values `d₁ / √ab₁ < d₂ / √ab₂` are compared exactly via signs and
squared magnitudes (valid whenever `ab₁, ab₂ > 0`, which holds for every
value the code constructs). -/
def simLt : SimVal → SimVal → Bool
  | .nan, _ => false
  | _, .nan => false
  | .fin d1 a1, .fin d2 a2 =>
    if d1 < 0 then
      if 0 ≤ d2 then true else decide (d2 ^ 2 * a1 < d1 ^ 2 * a2)
    else
      if d2 < 0 then false else decide (d1 ^ 2 * a2 < d2 ^ 2 * a1)

/-- Well-formed similarity values: the ones the code can construct with a
positive squared denominator.  `nan` is excluded. -/
def SimVal.WF : SimVal → Prop
  | .fin _ ab => 0 < ab
  | .nan => False

/-- Order-preserving rational encoding of a well-formed similarity value:
`rank (fin d ab) = sign d * d² / ab` is monotone in `d / √ab`. -/
def SimVal.rank : SimVal → ℚ
  | .fin d ab => if d < 0 then -(d ^ 2 / ab) else d ^ 2 / ab
  | .nan => 0

/-! ## Stable descending sort (model of `list.sort(reverse=True)` and
`ORDER BY key DESC`) -/

/-- Insert `x` (an element appearing earlier than everything in `l`) into a
descending-sorted `l`, keeping `x` before elements it does not strictly
lose to — the stable placement. -/
def insertD (lt : α → α → Bool) (x : α) : List α → List α
  | [] => [x]
  | y :: ys => if lt x y then y :: insertD lt x ys else x :: y :: ys

/-- Stable descending insertion sort. -/
def sortDesc (lt : α → α → Bool) : List α → List α
  | [] => []
  | x :: xs => insertD lt x (sortDesc lt xs)

/-! ## Data model (`src/storage.py`) -/

/-- The metadata dictionary; the spec's recognised keys, each optional
(a stored dict need not contain all of them).  `json.dumps`/`json.loads`
round-trips such a dict identically, so serialisation is the identity in
the model. -/
structure Meta where
  importance : Option Int
  category : Option String
  entities : Option (List String)
deriving DecidableEq, Repr

/-- One memory dictionary: the row columns of the `memories` table plus
the `'similarity'` key that `retrieve_relevant_memories` /
`find_similar_memories` add (absent, `none`, on rows coming straight from
the store).  Timestamps are abstract `Nat` instants; `tobytes` /
`frombuffer(dtype=float32)` on a float32 vector is an identity
round-trip, so the embedding blob is kept as the vector itself. -/
structure Mem where
  id : Int
  content : String
  embedding : Option (List ℚ)
  created_at : Nat
  updated_at : Nat
  metadata : Option Meta
  similarity : Option SimVal
deriving DecidableEq, Repr

/-- The SQLite database: the `AUTOINCREMENT` counter and the rows in
insertion (rowid) order. -/
structure Storage where
  nextId : Int
  rows : List Mem
deriving DecidableEq, Repr

/-- A fresh database (`AUTOINCREMENT` starts at 1). -/
def emptyStorage : Storage := ⟨1, []⟩

/-- Model of `MemoryStorage.add_memory`: INSERT with both timestamp columns
defaulting to the same statement time `now`; returns `lastrowid`. -/
def add_memory (s : Storage) (now : Nat) (content : String)
    (embedding : Option (List ℚ)) (metadata : Option Meta) : Storage × Int :=
  (⟨s.nextId + 1,
    s.rows ++ [⟨s.nextId, content, embedding, now, now, metadata, none⟩]⟩,
   s.nextId)

/-- Model of `MemoryStorage.get_memory`: SELECT ... WHERE id = ?, first row. -/
def get_memory (s : Storage) (memory_id : Int) : Option Mem :=
  s.rows.find? (fun r => r.id == memory_id)

/-- Model of `MemoryStorage.delete_memory`: DELETE WHERE id = ?; returns
`rowcount > 0`. -/
def delete_memory (s : Storage) (memory_id : Int) : Storage × Bool :=
  (⟨s.nextId, s.rows.filter (fun r => !(r.id == memory_id))⟩,
   s.rows.any (fun r => r.id == memory_id))

/-- Row ordering used by `ORDER BY created_at DESC`: SQLite feeds the
sorter in rowid order and the model keeps that arrival order for equal
keys (stable descending sort).  SQLite itself leaves the tie order
unspecified; nothing in the SQL adds a secondary key. -/
def createdLt (a b : Mem) : Bool := decide (a.created_at < b.created_at)

/-- Model of `MemoryStorage.get_all_memories`: SELECT ... ORDER BY created_at DESC. -/
def get_all_memories (s : Storage) : List Mem :=
  sortDesc createdLt s.rows

/-- ASCII-case-insensitive substring test used to model SQLite
`content LIKE '%query%'` (SQLite LIKE is case-insensitive for ASCII;
queries containing the wildcards `%`/`_` are outside the model). -/
def leadEq : List Char → List Char → Bool
  | [], _ => true
  | _ :: _, [] => false
  | a :: as, b :: bs => a == b && leadEq as bs

def containsSub (needle : List Char) : List Char → Bool
  | [] => leadEq needle []
  | c :: rest => leadEq needle (c :: rest) || containsSub needle rest

def lowerStr (s : String) : List Char := s.toList.map Char.toLower

/-- The rows matching a content search, ordered like `list_all`, before
the LIMIT is applied. -/
def searchRows (s : Storage) (query : String) : List Mem :=
  sortDesc createdLt
    (s.rows.filter (fun r => containsSub (lowerStr query) (lowerStr r.content)))

/-- Model of `MemoryStorage.search_by_content`: LIKE filter, ORDER BY created_at
DESC, LIMIT. -/
def search_by_content (s : Storage) (query : String) (limit : Nat) : List Mem :=
  (searchRows s query).take limit

/-- Model of `MemoryStorage.update_memory`: existence check, then a partial UPDATE
of exactly the supplied fields; `updated_at = CURRENT_TIMESTAMP` is added
only when at least one field is supplied (otherwise the early
`return True` fires and nothing is written). -/
def update_memory (s : Storage) (now : Nat) (memory_id : Int)
    (content : Option String) (embedding : Option (List ℚ))
    (metadata : Option Meta) : Storage × Bool :=
  if s.rows.any (fun r => r.id == memory_id) then
    if content.isNone && embedding.isNone && metadata.isNone then
      (s, true)
    else
      (⟨s.nextId,
        s.rows.map (fun r =>
          if r.id == memory_id then
            { r with
              content := content.getD r.content,
              embedding := embedding.or r.embedding,
              metadata := metadata.or r.metadata,
              updated_at := now }
          else r)⟩,
       true)
  else (s, false)

/-! ## Relevance ranking (`src/retriever.py` and
`MemoryStorage.find_similar_memories`) -/

/-- The cosine-similarity float
`np.dot(q, e) / (np.linalg.norm(q) * np.linalg.norm(e))` in exact form:
the norms are nonnegative, their product is zero exactly when
`normSq q * normSq e = 0`, and then the numerator is also zero, so the
float result is `0.0/0.0 = NaN`; otherwise the value is
`dotp q e / √(normSq q * normSq e)`. -/
def cosineSim (q e : List ℚ) : SimVal :=
  if normSq q * normSq e = 0 then .nan
  else .fin (dotp q e) (normSq q * normSq e)

/-- The loop body of `retrieve_relevant_memories`: set
`memory['similarity']` to the cosine similarity when an embedding is
present, else to `0.0`. -/
def annotate (q : List ℚ) (m : Mem) : Mem :=
  match m.embedding with
  | some e => { m with similarity := some (cosineSim q e) }
  | none => { m with similarity := some (.fin 0 1) }

/-- The sort key `x['similarity']` (always present after `annotate`). -/
def simKey (m : Mem) : SimVal := m.similarity.getD (.fin 0 1)

/-- Comparator used by `memories.sort(key=lambda x: x['similarity'],
reverse=True)`. -/
def memSimLt (a b : Mem) : Bool := simLt (simKey a) (simKey b)

/-- Model of `MemoryRetriever.retrieve_relevant_memories` with the query embedding
already obtained from the embedding service.  The function mutates the
caller's list in place, so the model returns the pair
(final state of the caller's list, returned value): every element gets a
`similarity` key, the whole list is sorted, and the return value is the
first `limit` entries of that same list. -/
def retrieve_relevant_memories (q : List ℚ) (memories : List Mem)
    (limit : Nat) : List Mem × List Mem :=
  let sorted := sortDesc memSimLt (memories.map (annotate q))
  (sorted, sorted.take limit)

/-- Model of `MemoryStorage.find_similar_memories`: rows WHERE embedding IS NOT
NULL in scan order, cosine similarity attached, Python-sorted descending,
first `limit`. -/
def find_similar_memories (s : Storage) (q : List ℚ) (limit : Nat) :
    List Mem :=
  (sortDesc memSimLt
    ((s.rows.filter (fun r => r.embedding.isSome)).map (annotate q))).take limit

/-! ## Extraction (`src/extractor.py`) -/

/-- A candidate memory as parsed from the completion service's JSON:
every key may be missing. -/
structure Candidate where
  content : String
  importance : Option Int
  category : Option String
  entities : Option (List String)
deriving DecidableEq, Repr

/-- Model of `MemoryExtractor.extract_memories` applied to the candidates already
returned by the completion service: keep those with
`memory.get('importance', 0) >= importance_threshold`. -/
def extract_memories (potential : List Candidate)
    (importance_threshold : Int) : List Candidate :=
  potential.filter (fun m => decide (m.importance.getD 0 ≥ importance_threshold))

/-- Model of `MemoryExtractor.should_store_memory`. -/
def should_store_memory (memory : Candidate) (threshold : Int) : Bool :=
  decide (memory.importance.getD 0 ≥ threshold)

/-! ## Orchestrator (`src/memory_system.py`) -/

/-- One conversation message. -/
structure Msg where
  role : String
  content : String
deriving DecidableEq, Repr

/-- An entry of the `new_memories` result list: id, content and the
metadata dict built in `process_conversation`. -/
structure NewMem where
  id : Int
  content : String
  metadata : Meta
deriving DecidableEq, Repr

/-- The metadata dict `process_conversation` stores with an extracted
candidate: `importance` defaults to 5, `category` to `'general'`,
`entities` to `[]`. -/
def mkMeta (c : Candidate) : Meta :=
  ⟨some (c.importance.getD 5), some (c.category.getD "general"),
   some (c.entities.getD [])⟩

/-- The extraction loop of `process_conversation`: embed and store each
surviving candidate, collecting the `new_memories` entries in order. -/
def extractPhase (embedOf : String → List ℚ) (mems : List Candidate)
    (now : Nat) (s : Storage) : Storage × List NewMem :=
  match mems with
  | [] => (s, [])
  | c :: rest =>
    let step := add_memory s now c.content (some (embedOf c.content))
      (some (mkMeta c))
    let after := extractPhase embedOf rest now step.1
    (after.1, ⟨step.2, c.content, mkMeta c⟩ :: after.2)

/-- The deletion loop of `process_conversation`: delete each id the
completion service returned, collecting the ids whose `delete_memory`
call returned `True`, in order. -/
def delLoop (s : Storage) (ids : List Int) : Storage × List Int :=
  match ids with
  | [] => (s, [])
  | i :: rest =>
    let step := delete_memory s i
    let after := delLoop step.1 rest
    (after.1, if step.2 then i :: after.2 else after.2)

/-- Step 1 of `process_conversation` (guarded by `extract_memories`):
the service's candidates are filtered at the default threshold 5, then
embedded and stored. -/
def postExtract (embedOf : String → List ℚ) (cands : List Candidate)
    (extract_flag : Bool) (now : Nat) (s : Storage) :
    Storage × List NewMem :=
  if extract_flag then extractPhase embedOf (extract_memories cands 5) now s
  else (s, [])

/-- Step 2 of `process_conversation` (guarded by `check_for_deletions`). -/
def postDelete (delIds : List Int) (check_flag : Bool) (s : Storage) :
    Storage × List Int :=
  if check_flag then delLoop s delIds else (s, [])

/-- The most recent user-authored message (scanning from the end). -/
def lastUserMsg (conv : List Msg) : Option String :=
  (conv.reverse.find? (fun m => m.role == "user")).map (fun m => m.content)

structure ProcResult where
  new_memories : List NewMem
  deleted_memories : List Int
  relevant_memories : List Mem
deriving DecidableEq, Repr

/-- Model of `MemorySystem.process_conversation`.  The two external services are
inputs: `embedOf` is the embedding service; `cands` is what the
completion service's extraction call returned for this conversation and
`delIds` what its deletion-selection call returned.  Extraction runs
first, then deletions, then the relevance lookup re-reads the
post-deletion store. -/
def process_conversation (embedOf : String → List ℚ)
    (cands : List Candidate) (delIds : List Int) (conv : List Msg)
    (extract_flag check_deletions : Bool) (now : Nat) (s : Storage) :
    Storage × ProcResult :=
  let e := postExtract embedOf cands extract_flag now s
  let d := postDelete delIds check_deletions e.1
  let relevant :=
    match lastUserMsg conv with
    | none => []
    | some msg =>
      (retrieve_relevant_memories (embedOf msg) (get_all_memories d.1) 5).2
  (d.1, ⟨e.2, d.2, relevant⟩)

/-- Sign tests on a similarity value (used to state where a zero
similarity sits in the ranked order). -/
def simPos : SimVal → Bool
  | .fin d _ => decide (0 < d)
  | .nan => false

def simNeg : SimVal → Bool
  | .fin d _ => decide (d < 0)
  | .nan => false

/-! ## General lemmas -/

theorem normSq_nonneg (v : List ℚ) : 0 ≤ normSq v := by
  unfold normSq
  induction v with
  | nil => simp [dotp]
  | cons a as ih =>
    simp only [dotp]
    exact add_nonneg (mul_self_nonneg a) ih

theorem simLt_irrefl (s : SimVal) : simLt s s = false := by
  cases s with
  | nan => rfl
  | fin d ab =>
    simp only [simLt]
    split
    · next h => simp [not_le.mpr h]
    · next h => simp [h]

/-- Exact characterisation of the float comparison on well-formed values:
`simLt` is the strict order of the `rank` encoding. -/
theorem simLt_iff_rank {d1 a1 d2 a2 : ℚ} (h1 : 0 < a1) (h2 : 0 < a2) :
    simLt (.fin d1 a1) (.fin d2 a2) = true ↔
      (SimVal.fin d1 a1).rank < (SimVal.fin d2 a2).rank := by
  simp only [simLt, SimVal.rank]
  rcases lt_or_ge d1 0 with hd1 | hd1 <;> rcases lt_or_ge d2 0 with hd2 | hd2
  · -- both negative: d2² a1 < d1² a2 ↔ -(d1²/a1) < -(d2²/a2)
    rw [if_pos hd1, if_neg (not_le.mpr hd2), if_pos hd1, if_pos hd2,
      decide_eq_true_eq, neg_lt_neg_iff, div_lt_div_iff₀ h2 h1]
  · -- d1 < 0 ≤ d2 : strictly less, since -(d1²/a1) < 0 ≤ d2²/a2
    rw [if_pos hd1, if_pos hd2, if_pos hd1, if_neg (not_lt.mpr hd2)]
    have h0 : 0 < d1 ^ 2 := by nlinarith
    have hl : 0 < d1 ^ 2 / a1 := div_pos h0 h1
    have hr : 0 ≤ d2 ^ 2 / a2 := div_nonneg (by positivity) (le_of_lt h2)
    simp only [true_iff]
    linarith
  · -- 0 ≤ d1, d2 < 0 : not less
    rw [if_neg (not_lt.mpr hd1), if_pos hd2, if_neg (not_lt.mpr hd1), if_pos hd2]
    have h0 : 0 < d2 ^ 2 := by nlinarith
    have hr : 0 < d2 ^ 2 / a2 := div_pos h0 h2
    have hl : 0 ≤ d1 ^ 2 / a1 := div_nonneg (by positivity) (le_of_lt h1)
    simp only [Bool.false_eq_true, false_iff, not_lt]
    linarith
  · -- both nonnegative
    rw [if_neg (not_lt.mpr hd1), if_neg (not_lt.mpr hd2),
      if_neg (not_lt.mpr hd1), if_neg (not_lt.mpr hd2),
      decide_eq_true_eq, div_lt_div_iff₀ h1 h2]

theorem simLt_asymm_wf {a b : SimVal} (ha : a.WF) (hb : b.WF)
    (h : simLt a b = true) : simLt b a = false := by
  cases a with
  | nan => exact ha.elim
  | fin d1 a1 =>
    cases b with
    | nan => exact hb.elim
    | fin d2 a2 =>
      simp only [SimVal.WF] at ha hb
      cases hc : simLt (.fin d2 a2) (.fin d1 a1) with
      | false => rfl
      | true =>
        exact absurd ((simLt_iff_rank hb ha).mp hc)
          (lt_asymm ((simLt_iff_rank ha hb).mp h))

theorem simLt_ntrans_wf {a b c : SimVal} (ha : a.WF) (hb : b.WF) (hc : c.WF)
    (hab : simLt a b = false) (hbc : simLt b c = false) :
    simLt a c = false := by
  cases a with
  | nan => exact ha.elim
  | fin d1 a1 =>
    cases b with
    | nan => exact hb.elim
    | fin d2 a2 =>
      cases c with
      | nan => exact hc.elim
      | fin d3 a3 =>
        simp only [SimVal.WF] at ha hb hc
        have h1 : ¬ (SimVal.fin d1 a1).rank < (SimVal.fin d2 a2).rank := by
          intro hlt
          rw [(simLt_iff_rank ha hb).mpr hlt] at hab
          exact Bool.noConfusion hab
        have h2 : ¬ (SimVal.fin d2 a2).rank < (SimVal.fin d3 a3).rank := by
          intro hlt
          rw [(simLt_iff_rank hb hc).mpr hlt] at hbc
          exact Bool.noConfusion hbc
        cases hac : simLt (.fin d1 a1) (.fin d3 a3) with
        | false => rfl
        | true =>
          have := (simLt_iff_rank ha hc).mp hac
          exact absurd this (not_lt.mpr (le_trans (not_lt.mp h2) (not_lt.mp h1)))

theorem insertD_perm (lt : α → α → Bool) (x : α) (l : List α) :
    List.Perm (insertD lt x l) (x :: l) := by
  induction l with
  | nil => simp [insertD]
  | cons y ys ih =>
    simp only [insertD]
    split
    · exact (ih.cons y).trans (List.Perm.swap x y ys)
    · exact List.Perm.refl _

theorem sortDesc_perm (lt : α → α → Bool) (l : List α) : List.Perm (sortDesc lt l) l := by
  induction l with
  | nil => rfl
  | cons x xs ih =>
    simp only [sortDesc]
    exact (insertD_perm lt x (sortDesc lt xs)).trans (ih.cons x)

theorem mem_sortDesc {lt : α → α → Bool} {l : List α} {a : α} :
    a ∈ sortDesc lt l ↔ a ∈ l :=
  (sortDesc_perm lt l).mem_iff

theorem insertD_pairwise {P : α → Prop} (lt : α → α → Bool)
    (asym : ∀ a b, P a → P b → lt a b = true → lt b a = false)
    (ntrans : ∀ a b c, P a → P b → P c →
      lt a b = false → lt b c = false → lt a c = false)
    (x : α) (l : List α) (hPx : P x) (hPl : ∀ a ∈ l, P a)
    (h : l.Pairwise (fun a b => lt a b = false)) :
    (insertD lt x l).Pairwise (fun a b => lt a b = false) := by
  induction l with
  | nil => simp [insertD]
  | cons y ys ih =>
    simp only [insertD]
    rcases List.pairwise_cons.mp h with ⟨hy, hys⟩
    split
    · next hxy =>
      refine List.pairwise_cons.mpr ⟨?_, ?_⟩
      · intro z hz
        rcases List.mem_cons.mp ((insertD_perm lt x ys).mem_iff.mp hz) with hzx | hzys
        · rw [hzx]
          exact asym x y hPx (hPl y (List.mem_cons_self y ys)) hxy
        · exact hy z hzys
      · exact ih (fun a ha => hPl a (List.mem_cons_of_mem y ha)) hys
    · next hxy =>
      have hx : lt x y = false := by
        cases hlt : lt x y with
        | false => rfl
        | true => exact absurd hlt hxy
      refine List.pairwise_cons.mpr ⟨?_, h⟩
      intro z hz
      rcases List.mem_cons.mp hz with hzy | hzys
      · subst hzy; exact hx
      · exact ntrans x y z hPx (hPl y (List.mem_cons_self y ys))
          (hPl z (List.mem_cons_of_mem y hzys)) hx (hy z hzys)

theorem sortDesc_pairwise {P : α → Prop} (lt : α → α → Bool)
    (asym : ∀ a b, P a → P b → lt a b = true → lt b a = false)
    (ntrans : ∀ a b c, P a → P b → P c →
      lt a b = false → lt b c = false → lt a c = false)
    (l : List α) (hPl : ∀ a ∈ l, P a) :
    (sortDesc lt l).Pairwise (fun a b => lt a b = false) := by
  induction l with
  | nil => simp [sortDesc]
  | cons x xs ih =>
    simp only [sortDesc]
    exact insertD_pairwise lt asym ntrans x (sortDesc lt xs)
      (hPl x (List.mem_cons_self x xs))
      (fun a ha => hPl a (List.mem_cons_of_mem x (mem_sortDesc.mp ha)))
      (ih (fun a ha => hPl a (List.mem_cons_of_mem x ha)))

/-- Stability: elements whose keys tie (the comparator never separates
them) come out of the sort in input order; stated via `filter`. -/
theorem insertD_filter (lt : α → α → Bool) (p : α → Bool) (x : α) (l : List α)
    (hpp : ∀ a b, p a = true → p b = true → lt a b = false) :
    (insertD lt x l).filter p =
      (if p x then [x] else []) ++ l.filter p := by
  induction l with
  | nil => cases hpx : p x <;> simp [insertD, List.filter, hpx]
  | cons y ys ih =>
    simp only [insertD]
    split
    · next hxy =>
      cases hpx : p x with
      | false => cases hpy : p y <;>
          simp [List.filter_cons, hpx, hpy, ih, hpx]
      | true =>
        cases hpy : p y with
        | false => simp [List.filter_cons, hpx, hpy, ih]
        | true => exact absurd hxy (by simp [hpp x y hpx hpy])
    · next hxy =>
      cases hpx : p x <;> simp [List.filter_cons, hpx]

theorem sortDesc_filter (lt : α → α → Bool) (p : α → Bool) (l : List α)
    (hpp : ∀ a b, p a = true → p b = true → lt a b = false) :
    (sortDesc lt l).filter p = l.filter p := by
  induction l with
  | nil => rfl
  | cons x xs ih =>
    simp only [sortDesc, insertD_filter lt p x (sortDesc lt xs) hpp, ih]
    cases hpx : p x <;> simp [List.filter_cons, hpx]

/-! ## Claim C2 (`code_bug`)

The spec requires that a zero query vector or a zero candidate embedding
yield similarity 0.  The code computes the raw quotient
`np.dot(q, e) / (np.linalg.norm(q) * np.linalg.norm(e))`
(`src/retriever.py` line 33, `src/storage.py` line 139); with a zero
vector both numerator and denominator are `0.0`, and IEEE `0.0/0.0` is
NaN, not 0.  The theorem evaluates the model of that expression at the
failing inputs. -/

/-- C2: for query `[1]` against the zero embedding `[0]` (and,
symmetrically, a zero query against `[1]`) the code's similarity is NaN;
in `retrieve_relevant_memories` the candidate therefore carries
`similarity = NaN`, which is a different value from the float `0.0`
(`SimVal.fin 0 1`) that the claim and the spec demand. -/
theorem c2_zero_vector_gives_nan :
    cosineSim [1] [0] = SimVal.nan ∧
    cosineSim [0] [1] = SimVal.nan ∧
    (annotate [1] ⟨1, "m", some [0], 0, 0, none, none⟩).similarity =
      some SimVal.nan ∧
    SimVal.nan ≠ SimVal.fin 0 1 := by
  refine ⟨?_, ?_, ?_, by simp⟩ <;>
    norm_num [cosineSim, annotate, normSq, dotp]

/-! ## Claim C4 (extraction filter) -/

/-- C4: `extract_memories` keeps exactly the candidates whose importance
(defaulting to 0 when missing) is `≥ importance_threshold`; the boundary
is inclusive (importance 5 kept at threshold 5, importance 4 dropped),
and a candidate without an importance score is kept only when the
threshold is `≤ 0`. -/
theorem c4_extraction_filter (potential : List Candidate) (t : Int) :
    (∀ c, c ∈ extract_memories potential t ↔
      c ∈ potential ∧ c.importance.getD 0 ≥ t) ∧
    (∀ c : Candidate, c.importance = none →
      (should_store_memory c t = true ↔ t ≤ 0)) ∧
    (∀ c : Candidate, c.importance = some 5 →
      should_store_memory c 5 = true) ∧
    (∀ c : Candidate, c.importance = some 4 →
      should_store_memory c 5 = false) := by
  refine ⟨?_, ?_, ?_, ?_⟩
  · intro c
    simp [extract_memories, List.mem_filter]
  · intro c hc
    simp [should_store_memory, hc]
  · intro c hc
    simp [should_store_memory, hc]
  · intro c hc
    simp [should_store_memory, hc]

/-- Witness for C4 at threshold 5 and candidates with importance 5, 4
and missing. -/
theorem c4_witness :
    ((⟨"keep", some 5, none, none⟩ : Candidate) ∈
        extract_memories
          [⟨"keep", some 5, none, none⟩, ⟨"drop", some 4, none, none⟩,
           ⟨"miss", none, none, none⟩] 5 ↔
      ((⟨"keep", some 5, none, none⟩ : Candidate) ∈
          [(⟨"keep", some 5, none, none⟩ : Candidate),
           ⟨"drop", some 4, none, none⟩, ⟨"miss", none, none, none⟩] ∧
        (Candidate.mk "keep" (some 5) none none).importance.getD 0 ≥ 5)) ∧
    (should_store_memory ⟨"miss", none, none, none⟩ 5 = true ↔ (5 : Int) ≤ 0) ∧
    should_store_memory ⟨"keep", some 5, none, none⟩ 5 = true ∧
    should_store_memory ⟨"drop", some 4, none, none⟩ 5 = false := by
  refine ⟨(c4_extraction_filter _ 5).1 _, ?_, ?_, ?_⟩
  · exact (c4_extraction_filter [] 5).2.1 _ rfl
  · exact (c4_extraction_filter [] 5).2.2.1 _ rfl
  · exact (c4_extraction_filter [] 5).2.2.2 _ rfl

/-! ## Claim C5 (`list_all` ordering) -/

/-- C5 counterexample: two `add_memory` calls in the same timestamp
second (`CURRENT_TIMESTAMP` has one-second resolution) produce rows with
equal `created_at` and ids 1, 2; `ORDER BY created_at DESC` has no
secondary key, the scan feeds ties in rowid order, and the result lists
id 1 before id 2 — id-ascending, not the id-descending order the claim
asserts. -/
theorem c5_counterexample :
    (get_all_memories
        (add_memory (add_memory emptyStorage 10 "A" none none).1
            10 "B" none none).1).map (fun r => r.id) = [1, 2] ∧
    (∀ r ∈ get_all_memories
        (add_memory (add_memory emptyStorage 10 "A" none none).1
            10 "B" none none).1, r.created_at = 10) ∧
    ([1, 2] : List Int) ≠ [2, 1] := by
  refine ⟨?_, ?_, by decide⟩ <;>
    simp [get_all_memories, add_memory, emptyStorage, sortDesc, insertD,
      createdLt]

/-- C5 amended: `get_all_memories` is sorted non-increasing by
`created_at`; rows with equal `created_at` keep their table (insertion /
id-ascending) order — the code implements no id-descending tie-break. -/
theorem c5_list_all_sorted_stable (s : Storage) :
    (get_all_memories s).Pairwise (fun a b => createdLt a b = false) ∧
    ∀ t : Nat,
      (get_all_memories s).filter (fun r => r.created_at == t) =
        s.rows.filter (fun r => r.created_at == t) := by
  constructor
  · exact sortDesc_pairwise (P := fun _ => True) createdLt
      (fun a b _ _ h => by
        simp only [createdLt, decide_eq_true_eq] at h
        simp only [createdLt, decide_eq_false_iff_not]
        omega)
      (fun a b c _ _ _ hab hbc => by
        simp only [createdLt, decide_eq_false_iff_not] at hab hbc ⊢
        omega)
      s.rows (fun _ _ => trivial)
  · intro t
    refine sortDesc_filter createdLt _ s.rows ?_
    intro a b ha hb
    simp only [beq_iff_eq] at ha hb
    simp [createdLt, ha, hb]

/-! ## Claim C6 (add/get round-trip) -/

/-- C6: on a store whose rows all have ids below the counter (true of
every reachable store), `add_memory` followed by `get_memory` of the
returned id yields a record with exactly the content, embedding and
metadata that were passed, and `created_at = updated_at` (both timestamp
columns default to the same statement time). -/
theorem c6_add_get_roundtrip (s : Storage) (now : Nat) (content : String)
    (embedding : Option (List ℚ)) (metadata : Option Meta)
    (hwf : ∀ r ∈ s.rows, r.id < s.nextId) :
    get_memory (add_memory s now content embedding metadata).1
        (add_memory s now content embedding metadata).2 =
      some ⟨s.nextId, content, embedding, now, now, metadata, none⟩ := by
  simp only [get_memory, add_memory, List.find?_append]
  have hnone : s.rows.find? (fun r => r.id == s.nextId) = none := by
    rw [List.find?_eq_none]
    intro r hr
    simp only [beq_iff_eq]
    exact ne_of_lt (hwf r hr)
  rw [hnone]
  simp [List.find?]

/-- Witness for C6: adding to the empty store and reading the row back. -/
theorem c6_witness :
    get_memory
        (add_memory emptyStorage 3 "hello" (some [1])
            (some ⟨some 7, some "personal", some ["x"]⟩)).1
        (add_memory emptyStorage 3 "hello" (some [1])
            (some ⟨some 7, some "personal", some ["x"]⟩)).2 =
      some ⟨1, "hello", some [1], 3, 3,
        some ⟨some 7, some "personal", some ["x"]⟩, none⟩ :=
  c6_add_get_roundtrip emptyStorage 3 "hello" (some [1])
    (some ⟨some 7, some "personal", some ["x"]⟩) (by decide)

/-! ## Claim C8 (partial update, frame conditions) -/

/-- Searching with `find?` through a map that does not change which elements satisfy
the search predicate finds the image of the element it found before. -/
theorem find?_map_eq_some {f : α → α} {p : α → Bool} {l : List α} {a : α}
    (hf : ∀ x, p (f x) = p x) (h : l.find? p = some a) :
    (l.map f).find? p = some (f a) := by
  induction l with
  | nil => simp at h
  | cons x xs ih =>
    rw [List.find?_cons] at h
    rw [List.map_cons, List.find?_cons, hf x]
    cases hpx : p x with
    | true =>
      rw [hpx] at h
      simp only [if_true]
      rw [Option.some.inj h]
    | false =>
      rw [hpx] at h
      simpa using ih h

/-- C8: when the id exists, `update_memory` with all fields omitted
returns success without touching the store at all (in particular
`updated_at` is unchanged); with at least one field supplied it updates
exactly the supplied fields of that record, leaves omitted fields as
they were, and refreshes `updated_at`. -/
theorem c8_update_frame (s : Storage) (now : Nat) (memory_id : Int)
    (r : Mem) (hr : get_memory s memory_id = some r) :
    update_memory s now memory_id none none none = (s, true) ∧
    ∀ (c : Option String) (e : Option (List ℚ)) (m : Option Meta),
      c.isSome ∨ e.isSome ∨ m.isSome →
      (update_memory s now memory_id c e m).2 = true ∧
      get_memory (update_memory s now memory_id c e m).1 memory_id =
        some { r with
          content := c.getD r.content,
          embedding := e.or r.embedding,
          metadata := m.or r.metadata,
          updated_at := now } := by
  simp only [get_memory] at hr
  have hany : s.rows.any (fun x => x.id == memory_id) = true := by
    rw [List.any_eq_true]
    exact ⟨r, List.mem_of_find?_eq_some hr,
      List.find?_some (p := fun x : Mem => x.id == memory_id) hr⟩
  have hid : (r.id == memory_id) = true :=
    List.find?_some (p := fun x : Mem => x.id == memory_id) hr
  constructor
  · simp [update_memory, hany]
  · intro c e m hsome
    have hne : (c.isNone && e.isNone && m.isNone) = false := by
      rcases hsome with h | h | h <;> cases c <;> cases e <;> cases m <;>
        simp_all
    constructor
    · simp [update_memory, hany, hne]
    · simp only [update_memory, hany, if_true, hne, Bool.false_eq_true,
        if_false, get_memory]
      exact (find?_map_eq_some
        (by intro x; by_cases hx : x.id == memory_id <;> simp [hx]) hr).trans
        (by simp [hid])

/-- Witness for C8 on a one-row store: the empty update is the identity
and a content-only update changes content and `updated_at` only. -/
theorem c8_witness :
    update_memory ⟨2, [⟨1, "old", none, 4, 4, none, none⟩]⟩ 9 1
        none none none =
      (⟨2, [⟨1, "old", none, 4, 4, none, none⟩]⟩, true) ∧
    (update_memory ⟨2, [⟨1, "old", none, 4, 4, none, none⟩]⟩ 9 1
        (some "new") none none).2 = true ∧
    get_memory (update_memory ⟨2, [⟨1, "old", none, 4, 4, none, none⟩]⟩
        9 1 (some "new") none none).1 1 =
      some ⟨1, "new", none, 4, 9, none, none⟩ := by
  have h := c8_update_frame ⟨2, [⟨1, "old", none, 4, 4, none, none⟩]⟩ 9 1
    ⟨1, "old", none, 4, 4, none, none⟩ (by decide)
  exact ⟨h.1, (h.2 (some "new") none none (Or.inl rfl)).1,
    (h.2 (some "new") none none (Or.inl rfl)).2⟩

/-! ## Retriever lemmas -/

theorem annotate_id (q : List ℚ) (m : Mem) : (annotate q m).id = m.id := by
  unfold annotate
  cases m.embedding <;> rfl

theorem annotate_sim_isSome (q : List ℚ) (m : Mem) :
    (annotate q m).similarity.isSome = true := by
  unfold annotate
  cases m.embedding <;> rfl

/-- Under a nonzero query and nonzero present embeddings, every
similarity value the loop assigns is a finite float with positive
squared denominator. -/
theorem annotate_wf (q : List ℚ) (hq : normSq q ≠ 0) (m : Mem)
    (hm : ∀ e, m.embedding = some e → normSq e ≠ 0) :
    SimVal.WF (simKey (annotate q m)) := by
  unfold annotate
  cases he : m.embedding with
  | none => exact one_pos
  | some e =>
    simp only [simKey, Option.getD_some]
    have hne : normSq q * normSq e ≠ 0 := mul_ne_zero hq (hm e he)
    have hnn : 0 ≤ normSq q * normSq e :=
      mul_nonneg (normSq_nonneg q) (normSq_nonneg e)
    simp only [cosineSim, if_neg hne, SimVal.WF]
    exact lt_of_le_of_ne hnn (Ne.symm hne)

theorem memSimLt_asym {a b : Mem} (ha : SimVal.WF (simKey a))
    (hb : SimVal.WF (simKey b)) (h : memSimLt a b = true) :
    memSimLt b a = false :=
  simLt_asymm_wf ha hb h

theorem memSimLt_ntrans {a b c : Mem} (ha : SimVal.WF (simKey a))
    (hb : SimVal.WF (simKey b)) (hc : SimVal.WF (simKey c))
    (hab : memSimLt a b = false) (hbc : memSimLt b c = false) :
    memSimLt a c = false :=
  simLt_ntrans_wf ha hb hc hab hbc

/-! ## Claim C10 (in-place mutation of the caller's list) -/

/-- C10: `retrieve_relevant_memories` mutates the caller's list: after
the call every element of the list carries a `similarity` key (also the
ones beyond the returned limit), the list is a reordering (permutation)
of the annotated input, the returned value is just the first `limit`
entries of that same mutated list, and a nonempty list of
similarity-free records is never left equal to what the caller passed
in. -/
theorem c10_inplace_mutation (q : List ℚ) (mems : List Mem) (limit : Nat) :
    (∀ m ∈ (retrieve_relevant_memories q mems limit).1,
      m.similarity.isSome = true) ∧
    List.Perm (retrieve_relevant_memories q mems limit).1
      (mems.map (annotate q)) ∧
    (retrieve_relevant_memories q mems limit).2 =
      ((retrieve_relevant_memories q mems limit).1).take limit ∧
    (mems ≠ [] → (∀ m ∈ mems, m.similarity = none) →
      (retrieve_relevant_memories q mems limit).1 ≠ mems) := by
  have hsome : ∀ m ∈ (retrieve_relevant_memories q mems limit).1,
      m.similarity.isSome = true := by
    intro m hm
    have hm2 : m ∈ mems.map (annotate q) := mem_sortDesc.mp hm
    rcases List.mem_map.mp hm2 with ⟨x, _, hx⟩
    rw [← hx]
    exact annotate_sim_isSome q x
  refine ⟨hsome, sortDesc_perm _ _, rfl, ?_⟩
  intro hne hnone heq
  rcases List.exists_cons_of_ne_nil hne with ⟨m, rest, hm⟩
  have hmem : m ∈ (retrieve_relevant_memories q mems limit).1 := by
    rw [heq, hm]; exact List.mem_cons_self m rest
  have h1 : m.similarity.isSome = true := hsome m hmem
  have h2 : m.similarity = none := hnone m (by rw [hm]; exact List.mem_cons_self m rest)
  rw [h2] at h1
  exact Bool.noConfusion h1

/-- Witness for C10 on a concrete one-element list. -/
theorem c10_witness :
    (∀ m ∈ (retrieve_relevant_memories [1]
        [⟨1, "A", some [1], 10, 10, none, none⟩] 5).1,
      m.similarity.isSome = true) ∧
    List.Perm (retrieve_relevant_memories [1]
        [⟨1, "A", some [1], 10, 10, none, none⟩] 5).1
      ([⟨1, "A", some [1], 10, 10, none, none⟩].map (annotate [1])) ∧
    (retrieve_relevant_memories [1]
        [⟨1, "A", some [1], 10, 10, none, none⟩] 5).2 =
      ((retrieve_relevant_memories [1]
          [⟨1, "A", some [1], 10, 10, none, none⟩] 5).1).take 5 ∧
    (retrieve_relevant_memories [1]
        [⟨1, "A", some [1], 10, 10, none, none⟩] 5).1 ≠
      [⟨1, "A", some [1], 10, 10, none, none⟩] := by
  have h := c10_inplace_mutation [1]
    [⟨1, "A", some [1], 10, 10, none, none⟩] 5
  exact ⟨h.1, h.2.1, h.2.2.1,
    h.2.2.2 (by decide) (by intro m hm; simp at hm; rw [hm])⟩

/-! ## Claim C1 (ranking order and tie-break) -/

/-- C1 counterexample: two candidates with identical embeddings (hence
identical similarity), the older one first in the caller's list.
Python's sort is stable, so the tied entries come out in input order:
`created_at` 10 before `created_at` 20 — ascending, not the
created_at-descending tie order the claim asserts. -/
theorem c1_counterexample :
    ((retrieve_relevant_memories [1]
        [⟨1, "A", some [1], 10, 10, none, none⟩,
         ⟨2, "B", some [1], 20, 20, none, none⟩] 5).2).map
        (fun m => (m.created_at, m.similarity)) =
      [(10, some (SimVal.fin 1 1)), (20, some (SimVal.fin 1 1))] := by
  norm_num [retrieve_relevant_memories, annotate, cosineSim, normSq, dotp,
    sortDesc, insertD, memSimLt, simKey, simLt]

/-- C1 amended: for a nonzero query vector and candidates whose present
embeddings are nonzero (so no similarity is NaN and CPython's sort is
well defined), the returned sequence is sorted non-increasing by
similarity; but entries with equal similarity appear in the caller's
input order (the sort is stable) — there is no `created_at` tie-break.
The same non-increasing order holds for
`MemoryStorage.find_similar_memories`. -/
theorem c1_rank_sorted_stable :
    (∀ (q : List ℚ) (mems : List Mem) (limit : Nat),
      normSq q ≠ 0 →
      (∀ m ∈ mems, ∀ e, m.embedding = some e → normSq e ≠ 0) →
      (retrieve_relevant_memories q mems limit).2.Pairwise
          (fun a b => memSimLt a b = false) ∧
      ∀ v : SimVal,
        (retrieve_relevant_memories q mems limit).1.filter
            (fun m => simKey m == v) =
          (mems.map (annotate q)).filter (fun m => simKey m == v)) ∧
    (∀ (s : Storage) (q : List ℚ) (limit : Nat),
      normSq q ≠ 0 →
      (∀ r ∈ s.rows, ∀ e, r.embedding = some e → normSq e ≠ 0) →
      (find_similar_memories s q limit).Pairwise
        (fun a b => memSimLt a b = false)) := by
  constructor
  · intro q mems limit hq hemb
    have hP : ∀ m ∈ mems.map (annotate q), SimVal.WF (simKey m) := by
      intro m hm
      rcases List.mem_map.mp hm with ⟨x, hx, rfl⟩
      exact annotate_wf q hq x (fun e he => hemb x hx e he)
    have hpair : (sortDesc memSimLt (mems.map (annotate q))).Pairwise
        (fun a b => memSimLt a b = false) :=
      sortDesc_pairwise (P := fun m => SimVal.WF (simKey m)) memSimLt
        (fun a b ha hb h => memSimLt_asym ha hb h)
        (fun a b c ha hb hc h1 h2 => memSimLt_ntrans ha hb hc h1 h2)
        _ hP
    constructor
    · exact List.Pairwise.sublist (List.take_sublist _ _) hpair
    · intro v
      refine sortDesc_filter memSimLt _ _ ?_
      intro a b ha hb
      simp only [beq_iff_eq] at ha hb
      unfold memSimLt
      rw [ha, hb]
      exact simLt_irrefl v
  · intro s q limit hq hrows
    have hP : ∀ m ∈ (s.rows.filter
        (fun r => r.embedding.isSome)).map (annotate q),
        SimVal.WF (simKey m) := by
      intro m hm
      rcases List.mem_map.mp hm with ⟨x, hx, rfl⟩
      exact annotate_wf q hq x
        (fun e he => hrows x (List.mem_filter.mp hx).1 e he)
    exact List.Pairwise.sublist (List.take_sublist _ _)
      (sortDesc_pairwise (P := fun m => SimVal.WF (simKey m)) memSimLt
        (fun a b ha hb h => memSimLt_asym ha hb h)
        (fun a b c ha hb hc h1 h2 => memSimLt_ntrans ha hb hc h1 h2)
        _ hP)

/-- Witness for C1 on a concrete nonzero query, candidate list and
store. -/
theorem c1_witness :
    ((retrieve_relevant_memories [1]
        [⟨1, "A", some [2], 10, 10, none, none⟩] 5).2.Pairwise
        (fun a b => memSimLt a b = false) ∧
      (retrieve_relevant_memories [1]
          [⟨1, "A", some [2], 10, 10, none, none⟩] 5).1.filter
          (fun m => simKey m == SimVal.fin 2 4) =
        ([(⟨1, "A", some [2], 10, 10, none, none⟩ : Mem)].map
            (annotate [1])).filter (fun m => simKey m == SimVal.fin 2 4)) ∧
    (find_similar_memories ⟨2, [⟨1, "A", some [2], 10, 10, none, none⟩]⟩
        [1] 5).Pairwise (fun a b => memSimLt a b = false) := by
  have hemb : ∀ m ∈ [(⟨1, "A", some [2], 10, 10, none, none⟩ : Mem)],
      ∀ e, m.embedding = some e → normSq e ≠ 0 := by
    intro m hm e he
    simp only [List.mem_singleton] at hm
    subst hm
    simp only [Option.some.injEq] at he
    subst he
    norm_num [normSq, dotp]
  have h1 := c1_rank_sorted_stable.1 [1]
    [⟨1, "A", some [2], 10, 10, none, none⟩] 5
    (by norm_num [normSq, dotp]) hemb
  have h2 := c1_rank_sorted_stable.2
    ⟨2, [⟨1, "A", some [2], 10, 10, none, none⟩]⟩ [1] 5
    (by norm_num [normSq, dotp]) (by intro r hr e he; exact hemb r hr e he)
  exact ⟨⟨h1.1, h1.2 (SimVal.fin 2 4)⟩, h2⟩

/-! ## Claim C9 (records without an embedding) -/

theorem simPos_of_not_lt_zero {v : SimVal}
    (h : simLt (.fin 0 1) v = false) : simPos v = false := by
  cases v with
  | nan => rfl
  | fin d ab =>
    simp only [simLt] at h
    rw [if_neg (lt_irrefl (0 : ℚ))] at h
    by_cases hd : d < 0
    · simp [simPos, not_lt.mpr (le_of_lt hd), lt_asymm hd]
    · rw [if_neg hd, decide_eq_false_iff_not] at h
      have hd2 : d ^ 2 ≤ 0 := by
        have := h
        nlinarith [this]
      have : d = 0 := by nlinarith [sq_nonneg d]
      simp [simPos, this]

theorem simNeg_of_not_lt_zero {v : SimVal}
    (h : simLt v (.fin 0 1) = false) : simNeg v = false := by
  cases v with
  | nan => rfl
  | fin d ab =>
    simp only [simLt] at h
    by_cases hd : d < 0
    · rw [if_pos hd, if_pos (le_refl (0 : ℚ))] at h
      exact Bool.noConfusion h
    · simp [simNeg, hd]

/-- C9 counterexample: with query `[1]`, a candidate whose embedding is
`[-1]` has similarity `-1`, strictly below the `0.0` given to the
record without an embedding — so the embedding-less record is ranked
*before* a record that has an embedding, refuting "ordered after every
record that has an embedding". -/
theorem c9_counterexample :
    (retrieve_relevant_memories [1]
        [⟨1, "A", some [-1], 10, 10, none, none⟩,
         ⟨2, "B", none, 5, 5, none, none⟩] 5).2 =
      [⟨2, "B", none, 5, 5, none, some (.fin 0 1)⟩,
       ⟨1, "A", some [-1], 10, 10, none, some (.fin (-1) 1)⟩] := by
  norm_num [retrieve_relevant_memories, annotate, cosineSim, normSq, dotp,
    sortDesc, insertD, memSimLt, simKey, simLt]

/-- C9 amended: a record without an embedding receives similarity
exactly `0.0`; in the ranked order (nonzero query, nonzero present
embeddings) every record after it has non-positive similarity and every
record before it has non-negative similarity — it sorts after the
positive-similarity records but *before* negative-similarity ones, not
after every embedded record.  Such a record remains retrievable by id
(`get_memory`) and by content search (`search_by_content` applies no
embedding filter). -/
theorem c9_no_embedding_similarity_zero :
    (∀ (q : List ℚ) (mems : List Mem) (limit : Nat) (m : Mem),
      normSq q ≠ 0 →
      (∀ x ∈ mems, ∀ e, x.embedding = some e → normSq e ≠ 0) →
      m ∈ mems → m.embedding = none →
      ({ m with similarity := some (.fin 0 1) } ∈
          (retrieve_relevant_memories q mems limit).1 ∧
        ∀ l₁ l₂,
          (retrieve_relevant_memories q mems limit).1 =
            l₁ ++ { m with similarity := some (.fin 0 1) } :: l₂ →
          (∀ b ∈ l₂, simPos (simKey b) = false) ∧
          (∀ a ∈ l₁, simNeg (simKey a) = false))) ∧
    (∀ (s : Storage) (r : Mem) (pat : String), r ∈ s.rows →
      (get_memory s r.id).isSome = true ∧
      (containsSub (lowerStr pat) (lowerStr r.content) = true →
        r ∈ searchRows s pat)) := by
  constructor
  · intro q mems limit m hq hemb hmem hnone
    have hann : annotate q m = { m with similarity := some (.fin 0 1) } := by
      unfold annotate
      rw [hnone]
    constructor
    · exact mem_sortDesc.mpr (List.mem_map.mpr ⟨m, hmem, hann⟩)
    · intro l₁ l₂ hsplit
      have hP : ∀ x ∈ mems.map (annotate q), SimVal.WF (simKey x) := by
        intro x hx
        rcases List.mem_map.mp hx with ⟨y, hy, rfl⟩
        exact annotate_wf q hq y (fun e he => hemb y hy e he)
      have hpair : (sortDesc memSimLt (mems.map (annotate q))).Pairwise
          (fun a b => memSimLt a b = false) :=
        sortDesc_pairwise (P := fun x => SimVal.WF (simKey x)) memSimLt
          (fun a b ha hb h => memSimLt_asym ha hb h)
          (fun a b c ha hb hc h1 h2 => memSimLt_ntrans ha hb hc h1 h2)
          _ hP
      have hsplit' : (sortDesc memSimLt (mems.map (annotate q))) =
          l₁ ++ { m with similarity := some (.fin 0 1) } :: l₂ := hsplit
      rw [hsplit'] at hpair
      rcases List.pairwise_append.mp hpair with ⟨hp1, hp2, hcross⟩
      rcases List.pairwise_cons.mp hp2 with ⟨hafter, _⟩
      have hkey : simKey { m with similarity := some (.fin 0 1) } =
          SimVal.fin 0 1 := rfl
      constructor
      · intro b hb
        have := hafter b hb
        unfold memSimLt at this
        rw [hkey] at this
        exact simPos_of_not_lt_zero this
      · intro a ha
        have := hcross a ha _ (List.mem_cons_self _ l₂)
        unfold memSimLt at this
        rw [hkey] at this
        exact simNeg_of_not_lt_zero this
  · intro s r pat hr
    constructor
    · exact List.find?_isSome.mpr ⟨r, hr, by simp⟩
    · intro hmatch
      exact mem_sortDesc.mpr (List.mem_filter.mpr ⟨hr, hmatch⟩)

/-- Witness for C9: concrete two-candidate ranking and a concrete store
lookup/search. -/
theorem c9_witness :
    ((⟨2, "B", none, 5, 5, none, some (.fin 0 1)⟩ : Mem) ∈
        (retrieve_relevant_memories [1]
          [⟨1, "A", some [-1], 10, 10, none, none⟩,
           ⟨2, "B", none, 5, 5, none, none⟩] 5).1 ∧
      simPos (simKey ⟨1, "A", some [-1], 10, 10, none,
        some (.fin (-1) 1)⟩) = false) ∧
    (get_memory ⟨2, [⟨1, "note about apples", none, 4, 4, none, none⟩]⟩
        1).isSome = true ∧
    (⟨1, "note about apples", none, 4, 4, none, none⟩ : Mem) ∈
      searchRows ⟨2, [⟨1, "note about apples", none, 4, 4, none, none⟩]⟩
        "apple" := by
  have hemb : ∀ x ∈ [(⟨1, "A", some [-1], 10, 10, none, none⟩ : Mem),
      ⟨2, "B", none, 5, 5, none, none⟩],
      ∀ e, x.embedding = some e → normSq e ≠ 0 := by
    intro x hx e he
    rcases List.mem_cons.mp hx with h | h
    · subst h
      simp only [Option.some.injEq] at he
      subst he
      norm_num [normSq, dotp]
    · simp only [List.mem_singleton] at h
      subst h
      simp at he
  have hA := c9_no_embedding_similarity_zero.1 [1]
    [⟨1, "A", some [-1], 10, 10, none, none⟩,
     ⟨2, "B", none, 5, 5, none, none⟩] 5
    ⟨2, "B", none, 5, 5, none, none⟩
    (by norm_num [normSq, dotp]) hemb (by simp) rfl
  have hsplit := hA.2 []
    [⟨1, "A", some [-1], 10, 10, none, some (.fin (-1) 1)⟩]
    (by norm_num [retrieve_relevant_memories, annotate, cosineSim, normSq,
      dotp, sortDesc, insertD, memSimLt, simKey, simLt])
  have hB := c9_no_embedding_similarity_zero.2
    ⟨2, [⟨1, "note about apples", none, 4, 4, none, none⟩]⟩
    ⟨1, "note about apples", none, 4, 4, none, none⟩ "apple"
    (by simp)
  exact ⟨⟨hA.1, hsplit.1 _ (by simp)⟩, hB.1, hB.2 (by decide)⟩

/-! ## Deletion-loop lemmas (`process_conversation` step 2) -/

/-- The deletion loop never adds rows. -/
theorem delLoop_no_new : ∀ (ids : List Int) (s : Storage) (r : Mem),
    r ∈ (delLoop s ids).1.rows → r ∈ s.rows := by
  intro ids
  induction ids with
  | nil => intro s r h; exact h
  | cons j rest ih =>
    intro s r h
    simp only [delLoop] at h
    have hmem := ih (delete_memory s j).1 r h
    simp only [delete_memory] at hmem
    exact List.mem_of_mem_filter hmem

/-- Every id collected in `deleted_memories` identified a row present
when the loop started, and no row with that id survives the loop. -/
theorem delLoop_deleted : ∀ (ids : List Int) (s : Storage) (i : Int),
    i ∈ (delLoop s ids).2 →
    (∃ r ∈ s.rows, r.id = i) ∧ ∀ r ∈ (delLoop s ids).1.rows, r.id ≠ i := by
  intro ids
  induction ids with
  | nil => intro s i h; simp [delLoop] at h
  | cons j rest ih =>
    intro s i h
    simp only [delLoop] at h ⊢
    by_cases hok : (delete_memory s j).2 = true
    · rw [if_pos hok] at h
      rcases List.mem_cons.mp h with hij | hmem
      · subst hij
        constructor
        · simp only [delete_memory] at hok
          rcases List.any_eq_true.mp hok with ⟨r, hr, hrid⟩
          exact ⟨r, hr, by simpa using hrid⟩
        · intro r hr
          have hrs1 := delLoop_no_new rest _ r hr
          simp only [delete_memory] at hrs1
          have := (List.mem_filter.mp hrs1).2
          simpa using this
      · rcases ih _ i hmem with ⟨⟨r, hr, hri⟩, habs⟩
        refine ⟨⟨r, ?_, hri⟩, habs⟩
        simp only [delete_memory] at hr
        exact List.mem_of_mem_filter hr
    · rw [if_neg hok] at h
      rcases ih _ i h with ⟨⟨r, hr, hri⟩, habs⟩
      refine ⟨⟨r, ?_, hri⟩, habs⟩
      simp only [delete_memory] at hr
      exact List.mem_of_mem_filter hr

/-- An id that identifies no current row is ignored: `delete_memory`
returns `False` for it and it is never collected. -/
theorem delLoop_missing_ignored : ∀ (ids : List Int) (s : Storage) (i : Int),
    (∀ r ∈ s.rows, r.id ≠ i) → i ∉ (delLoop s ids).2 := by
  intro ids
  induction ids with
  | nil => intro s i _ h; simp [delLoop] at h
  | cons j rest ih =>
    intro s i habs h
    simp only [delLoop] at h
    have habs1 : ∀ r ∈ (delete_memory s j).1.rows, r.id ≠ i := by
      intro r hr
      simp only [delete_memory] at hr
      exact habs r (List.mem_of_mem_filter hr)
    by_cases hok : (delete_memory s j).2 = true
    · rw [if_pos hok] at h
      rcases List.mem_cons.mp h with hij | hmem
      · subst hij
        simp only [delete_memory] at hok
        rcases List.any_eq_true.mp hok with ⟨r, hr, hrid⟩
        exact habs r hr (by simpa using hrid)
      · exact ih _ i habs1 hmem
    · rw [if_neg hok] at h
      exact ih _ i habs1 h

/-! ## Claim C3 (deletions applied before the relevance lookup) -/

/-- C3: in one `process_conversation` call, no id collected in
`deleted_memories` appears among the ids of `relevant_memories`: the
deletions run first and the relevance lookup re-reads
`get_all_memories()` on the post-deletion store. -/
theorem c3_deleted_not_relevant (embedOf : String → List ℚ)
    (cands : List Candidate) (delIds : List Int) (conv : List Msg)
    (ef cd : Bool) (now : Nat) (s : Storage) :
    ∀ i ∈ (process_conversation embedOf cands delIds conv ef cd
        now s).2.deleted_memories,
      ∀ m ∈ (process_conversation embedOf cands delIds conv ef cd
          now s).2.relevant_memories,
        m.id ≠ i := by
  intro i hi m hm
  simp only [process_conversation] at hi hm
  cases cd with
  | false => simp [postDelete] at hi
  | true =>
    simp only [postDelete, if_true] at hi hm
    cases hl : lastUserMsg conv with
    | none => rw [hl] at hm; simp at hm
    | some msg =>
      rw [hl] at hm
      simp only [retrieve_relevant_memories] at hm
      have hm1 := List.take_subset _ _ hm
      have hm2 := mem_sortDesc.mp hm1
      rcases List.mem_map.mp hm2 with ⟨x, hx, hxm⟩
      have hx2 : x ∈ (delLoop (postExtract embedOf cands ef now s).1
          delIds).1.rows := mem_sortDesc.mp hx
      have habs := (delLoop_deleted delIds _ i hi).2 x hx2
      rw [← hxm, annotate_id]
      exact habs

/-- Witness for C3: a two-row store, the service deletes id 1, the
relevance lookup then runs over the surviving store and ranks the
remaining record, whose id the theorem shows differs from the deleted
id. -/
theorem c3_witness :
    (⟨2, "B", none, 2, 2, none, some (.fin 0 1)⟩ : Mem).id ≠ 1 :=
  c3_deleted_not_relevant (fun _ => [1]) [] [1] [⟨"user", "hi"⟩]
    false true 7
    ⟨3, [⟨1, "A", none, 1, 1, none, none⟩,
         ⟨2, "B", none, 2, 2, none, none⟩]⟩ 1
    (by norm_num [process_conversation, postExtract, postDelete, delLoop,
      delete_memory])
    ⟨2, "B", none, 2, 2, none, some (.fin 0 1)⟩
    (by norm_num [process_conversation, postExtract, postDelete, delLoop,
      delete_memory, lastUserMsg, get_all_memories, sortDesc, insertD,
      createdLt, retrieve_relevant_memories, annotate, memSimLt, simKey,
      simLt, List.find?])

/-! ## Claim C7 (deletion validation) -/

/-- C7: with curation enabled, ids returned by the deletion-selection
service that identify no currently stored memory (the store state after
the extraction step) are ignored without error — they never reach
`deleted_memories`; and every id in `deleted_memories` identified a row
of that store state and was genuinely removed from the final store. -/
theorem c7_deletion_validation (embedOf : String → List ℚ)
    (cands : List Candidate) (delIds : List Int) (conv : List Msg)
    (ef : Bool) (now : Nat) (s : Storage) :
    (∀ i ∈ delIds,
      (∀ r ∈ (postExtract embedOf cands ef now s).1.rows, r.id ≠ i) →
      i ∉ (process_conversation embedOf cands delIds conv ef true
          now s).2.deleted_memories) ∧
    (∀ i ∈ (process_conversation embedOf cands delIds conv ef true
        now s).2.deleted_memories,
      (∃ r ∈ (postExtract embedOf cands ef now s).1.rows, r.id = i) ∧
      ∀ r ∈ (process_conversation embedOf cands delIds conv ef true
          now s).1.rows, r.id ≠ i) := by
  constructor
  · intro i _ habs hi
    simp only [process_conversation, postDelete, if_true] at hi
    exact delLoop_missing_ignored delIds _ i habs hi
  · intro i hi
    simp only [process_conversation, postDelete, if_true] at hi ⊢
    exact delLoop_deleted delIds _ i hi

/-- Witness for C7: the service returns ids 99 (not stored — ignored)
and 1 (stored — deleted). -/
theorem c7_witness :
    (99 : Int) ∉ (process_conversation (fun _ => [1]) [] [99, 1] []
        false true 7
        ⟨2, [⟨1, "A", none, 1, 1, none, none⟩]⟩).2.deleted_memories ∧
    ((∃ r ∈ (postExtract (fun _ => ([1] : List ℚ)) [] false 7
        ⟨2, [⟨1, "A", none, 1, 1, none, none⟩]⟩).1.rows, r.id = 1) ∧
      ∀ r ∈ (process_conversation (fun _ => [1]) [] [99, 1] []
          false true 7
          ⟨2, [⟨1, "A", none, 1, 1, none, none⟩]⟩).1.rows, r.id ≠ 1) := by
  have h := c7_deletion_validation (fun _ => [1]) [] [99, 1] []
    false 7 ⟨2, [⟨1, "A", none, 1, 1, none, none⟩]⟩
  refine ⟨h.1 99 (by decide) ?_, h.2 1 ?_⟩
  · intro r hr
    simp only [postExtract] at hr
    simp only [Bool.false_eq_true, if_false, List.mem_singleton] at hr
    subst hr
    decide
  · norm_num [process_conversation, postExtract, postDelete, delLoop,
      delete_memory]
